import Mathlib

/-
Verification development for the permuted-MNIST continual-learning benchmark
script fc_permute_mnist.py.  The orchestrator, memory-management and
strategy-dispatch logic of the script is shallowly embedded below; external
collaborators (the TensorFlow model, the dataset builder) are represented as
abstract deterministic operation records, as the design treats their
computation as opaque blocking calls.  Numeric machine values are embedded as
exact rationals; IEEE non-finite outcomes relevant to the control flow (NaN
and infinities) are embedded explicitly in the type FVal.
-/

/-- Embedding of a Python/numpy float as far as the control flow observes it:
a finite value (exact rational), one of the two infinities, or NaN. -/
inductive FVal where
  | fin : ℚ → FVal
  | posInf : FVal
  | negInf : FVal
  | nan : FVal
deriving DecidableEq

/-- Embedding of math.isnan. -/
def isnan : FVal → Bool
  | .nan => true
  | _ => false

/-- Embedding of math.isfinite (a value is finite iff it is neither NaN nor infinite). -/
def isfinite : FVal → Bool
  | .fin _ => true
  | _ => false

/-- TOTAL_CLASSES = 10 in fc_permute_mnist.py. -/
def TOTAL_CLASSES : Nat := 10

/-- INPUT_FEATURE_SIZE = 784 in fc_permute_mnist.py. -/
def INPUT_FEATURE_SIZE : Nat := 784

/-- VALID_ARCHS from fc_permute_mnist.py. -/
def VALID_ARCHS : List String := ["FC-S", "FC-B"]

/-- VALID_OPTIMS from fc_permute_mnist.py. -/
def VALID_OPTIMS : List String := ["SGD", "MOMENTUM", "ADAM"]

/-- MODELS (the list of valid strategy names) from fc_permute_mnist.py. -/
def MODELS : List String :=
  ["VAN", "PI", "EWC", "MAS", "RWALK", "A-GEM", "S-GEM", "FTR_EXT", "MER",
   "ER-Reservoir", "ER-Ring", "ER-Hindsight-Anchors"]

/-- Minimum of a row, as numpy a.min() on a non-empty array ([] defaults to 0). -/
def rowMin : List ℚ → ℚ
  | [] => 0
  | a :: l => l.foldl min a

/-- Maximum of a row, as numpy a.max() on a non-empty array ([] defaults to 0). -/
def rowMax : List ℚ → ℚ
  | [] => 0
  | a :: l => l.foldl max a

/-- One row of normalize_tensors: a[i] = (a[i] - a[i].min()) / (a[i].max() - a[i].min()).
When the row is constant the divisor is 0 and every entry is numpy 0/0, i.e. NaN. -/
def normalizeRow (a : List ℚ) : List FVal :=
  if rowMax a - rowMin a = 0 then a.map (fun _ => FVal.nan)
  else a.map (fun x => FVal.fin ((x - rowMin a) / (rowMax a - rowMin a)))

/-- Embedding of normalize_tensors (fc_permute_mnist.py lines 80-84): each row of
the tensor stack is min-max normalized independently. -/
def normalize_tensors (rows : List (List ℚ)) : List (List FVal) :=
  rows.map normalizeRow

/-- Modelled from the spec: er_mem_update_hindsight (utils/er_utils.py, not under
src/): for each class the component synthesizes one representative input by
combining the model's mean-embedding score with the running per-class average
image; if a class has zero resident examples the representative defaults to the
zero vector.  The synthesis itself is owned by the external model and is
abstracted as the function synth; the per-class resident counts are the
function residentCount. -/
def er_mem_update_hindsight (residentCount : Nat → Nat) (synth : Nat → List ℚ)
    (numCls featDim : Nat) : List (List ℚ) :=
  (List.range numCls).map (fun c =>
    if residentCount c = 0 then List.replicate featDim (0 : ℚ) else synth c)

/-- The block of anchor rows written for a task t > 0 (fc_permute_mnist.py lines
467-474): the per-class representatives are generated and then passed through
normalize_tensors before being stored in the anchor buffer. -/
def hindsightAnchorsWritten (residentCount : Nat → Nat) (synth : Nat → List ℚ)
    (numCls featDim : Nat) : List (List FVal) :=
  normalize_tensors (er_mem_update_hindsight residentCount synth numCls featDim)

/-- One example: an input row and its one-hot label row. -/
structure Ex where
  img : List ℚ
  lab : List ℚ
deriving DecidableEq

/-- The class of a one-hot label row: the largest index holding a nonzero entry
(numpy np.unique(np.nonzero(er_y))[-1]); defaults to 0 on an all-zero row. -/
def clsOf (lab : List ℚ) : Nat :=
  (((List.range lab.length).filter (fun i => decide (lab.getD i 0 ≠ 0))).getLast?).getD 0

/-- One-hot label row of length n with the hot entry at class c. -/
def oneHotQ (n c : Nat) : List ℚ :=
  (List.range n).map (fun i => if i = c then 1 else 0)

/-- State of a class-partitioned FIFO ring buffer: the flat slot array (a total
map from slot index to contents) and the per-class write cursors. -/
structure FifoSt where
  mem : Nat → Option Ex
  countCls : Nat → Nat

/-- One FIFO insertion: route the example to its label's class, write it at the
slot offset + memPerClass * class + cursor, advance the cursor modulo
memPerClass. -/
def fifoStep (memPerClass offset : Nat) (st : FifoSt) (e : Ex) : FifoSt :=
  let c := clsOf e.lab
  let idx := offset + memPerClass * c + st.countCls c
  { mem := Function.update st.mem idx (some e),
    countCls := Function.update st.countCls c ((st.countCls c + 1) % memPerClass) }

/-- Modelled from the spec: update_fifo_buffer (utils/er_utils.py, not under
src/): each incoming example is routed to the fixed-size ring of its label's
class; a full ring overwrites oldest-first at the per-class write cursor, which
advances modulo memPerClass; the block of the buffer starting at offset is the
region owned by the current task. -/
def update_fifo_buffer (batch : List Ex) (memPerClass offset : Nat) (st : FifoSt) : FifoSt :=
  batch.foldl (fifoStep memPerClass offset) st

/-- The anchor-buffer population performed during task 0 of the
ER-Hindsight-Anchors strategy (fc_permute_mnist.py lines 432-434): every
realized batch of the task-0 stream is offered to the anchor slots through
update_fifo_buffer with mem_per_class = 1 and offset anchors_counter = 0. -/
def taskZeroAnchorUpdate (batches : List (List Ex)) (st : FifoSt) : FifoSt :=
  batches.foldl (fun s b => update_fifo_buffer b 1 0 s) st

/-- Sampling without replacement from a pool, driven by an abstract stream of
random draws (the model of np.random.choice(n, k, replace=False)): at each step
a uniform position in the remaining pool is consumed and removed. -/
def pick (rand : Nat → Nat) : Nat → List Nat → Nat → List Nat
  | 0, _, _ => []
  | _ + 1, [], _ => []
  | k + 1, a :: l, s =>
    let i := rand s % (a :: l).length
    (a :: l).getD i 0 :: pick rand k ((a :: l).eraseIdx i) (s + 1)

/-- The memory-sample index selection used by the strategies (fc_permute_mnist.py
lines 328-332, 366-368, 402-404, 417-420): all resident indices in order when
the resident count r is at most the requested size k, otherwise a size-k sample
without replacement from [0, r). -/
def memSelect (r k : Nat) (rand : Nat → Nat) : List Nat :=
  if r ≤ k then List.range r else pick rand k (List.range r) 0

/-- Model of np.random.shuffle: a random permutation of the list, realized by
repeatedly extracting a random remaining element. -/
def npShuffle (rand : Nat → Nat) (s : Nat) (l : List Nat) : List Nat :=
  pick rand l.length l s

/-- The memory indices actually used by the ER-Reservoir strategy
(fc_permute_mnist.py lines 366-369): select from [0, min(seen, capacity)), then
shuffle in place before indexing the episodic buffer. -/
def erReservoirMemIndices (seen capacity k : Nat) (randSel randShuf : Nat → Nat) : List Nat :=
  npShuffle randShuf 0 (memSelect (min seen capacity) k randSel)

/-- Modelled from the spec: update_reservior (utils/er_utils.py, not under src/):
for each offered example, append while the buffer is not full, otherwise draw a
uniform index in [0, examples_seen_so_far] and overwrite that slot when it
falls inside the capacity; the seen counter advances for every example. -/
def update_reservior (batch : List Ex) (capacity : Nat) (rand : Nat → Nat)
    (mem : Nat → Option Ex) (seen : Nat) : (Nat → Option Ex) × Nat :=
  batch.foldl
    (fun p e =>
      if p.2 < capacity then (Function.update p.1 p.2 (some e), p.2 + 1)
      else
        let j := rand p.2 % (p.2 + 1)
        (if j < capacity then Function.update p.1 j (some e) else p.1, p.2 + 1))
    (mem, seen)

/-- The divergence check of the training loop (fc_permute_mnist.py lines
448-453): iterations run in order starting at start, each producing the loss
lossOf i; after each iteration math.isnan(loss) is tested and on NaN the
process exits (sys.exit).  Returns the executed iteration indices and whether
the abort fired. -/
def lossLoop (lossOf : Nat → FVal) : Nat → Nat → List Nat × Bool
  | _, 0 => ([], false)
  | s, n + 1 =>
    if isnan (lossOf s) then ([s], true)
    else
      let r := lossLoop lossOf (s + 1) n
      (s :: r.1, r.2)

/-- The per-iteration accuracy-snapshot condition (fc_permute_mnist.py lines
278-282): only in single-epoch mode with cross-validation mode off, at
iterations below 10, multiples of 10 below 100, and multiples of 100. -/
def snapshotAtIter (trainSingleEpoch crossValidateMode : Bool) (i : Nat) : Bool :=
  trainSingleEpoch && !crossValidateMode &&
    (decide (i < 10) || (decide (i < 100) && decide (i % 10 = 0)) || decide (i % 100 = 0))

/-- Mini-batch start offset with wraparound (fc_permute_mnist.py line 284). -/
def batchOffset (batchSize n i : Nat) : Nat := (i * batchSize) % n

/-- Residual size of the mini-batch at iteration i (fc_permute_mnist.py lines
285-288): the full batch size unless the epoch boundary truncates it. -/
def batchResidual (batchSize n i : Nat) : Nat :=
  if batchOffset batchSize n i + batchSize ≤ n then batchSize
  else n - batchOffset batchSize n i

/-- The realized current-task batch of iteration i: the residual-sized slice
train_x[offset : offset + residual]. -/
def realizedBatch (trainX : List Ex) (batchSize i : Nat) : List Ex :=
  (trainX.drop (batchOffset batchSize trainX.length i)).take
    (batchResidual batchSize trainX.length i)

/-- Observable events of one A-GEM training iteration. -/
inductive Ev where
  | storeRefGrads : List Nat → Ev
  | trainStep : Nat → Nat → Ev
  | fifoUpdate : Nat → Nat → List Ex → Ev
deriving DecidableEq

/-- Strategy names recognized by the training loop dispatch. -/
inductive ImpMethod where
  | VAN | PI | EWC | MAS | RWALK | AGEM | SGEM | FTR_EXT | MER
  | ERReservoir | ERRing | ERHindsight
deriving DecidableEq

/-- use_episodic_memory (fc_permute_mnist.py lines 150-153): A-GEM, MER and the
three ER- strategies reserve episodic memory. -/
def useEpisodicMemory : ImpMethod → Bool
  | .AGEM | .MER | .ERReservoir | .ERRing | .ERHindsight => true
  | _ => false

/-- The configuration surface of one experiment (the CLI arguments consumed by
train_task_sequence). -/
structure RunConfig where
  random_seed : Nat
  num_runs : Nat
  num_tasks : Nat
  mem_size : Nat
  eps_mem_batch : Nat
  batch_size : Nat
  train_iters : Nat
  train_single_epoch : Bool
  cross_validate_mode : Bool
  imp_method : ImpMethod

/-- episodic_mem_size = mem_size * num_tasks * TOTAL_CLASSES
(fc_permute_mnist.py line 169). -/
def episodicMemSize (cfg : RunConfig) : Nat :=
  cfg.mem_size * cfg.num_tasks * TOTAL_CLASSES

/-- The event trace of one A-GEM iteration (fc_permute_mnist.py lines 322-344):
for tasks after the first, the reference gradients are computed from a memory
sample and stored, then the projected training step runs; in every case the
FIFO ring buffer receives the realized batch last. -/
def agemIterEvents (cfg : RunConfig) (t i : Nat) (counter : Nat) (rand : Nat → Nat)
    (trainX : List Ex) : List Ev :=
  let batch := realizedBatch trainX cfg.batch_size i
  if t = 0 then [Ev.trainStep t i, Ev.fifoUpdate t i batch]
  else [Ev.storeRefGrads (memSelect counter cfg.eps_mem_batch rand),
        Ev.trainStep t i, Ev.fifoUpdate t i batch]

/-- The event trace of a whole A-GEM task: the iteration traces concatenated in
iteration order. -/
def taskAgemEvents (cfg : RunConfig) (t numIters counter : Nat) (rand : Nat → Nat)
    (trainX : List Ex) : List Ev :=
  ((List.range numIters).map (fun i => agemIterEvents cfg t i counter rand trainX)).flatten

/-- The deterministic external collaborators (model/optimizer and dataset
builder), specified through the interface the orchestrator needs; the design
treats every call as an opaque deterministic blocking computation. -/
structure ExtOps where
  initParams : Nat
  datasets : Nat → Nat → List Ex
  trainStep : ImpMethod → Nat → List Ex → Nat
  storeRef : Nat → List Ex → Nat
  taskUpdates : Nat → Nat → Nat
  evalAcc : Nat → Nat → ℚ

/-- The mutable per-run state of train_task_sequence: model parameters, the
restore checkpoint, optimizer state, the numpy RNG state, the loaded datasets,
the episodic buffer with its per-class cursors, the two fill counters, and the
accumulated accuracy snapshots. -/
structure RunSt where
  params : Nat
  saved : Nat
  optState : Nat
  rng : Nat
  data : Nat → List Ex
  episodic : Nat → Option Ex
  countCls : Nat → Nat
  episodicFilled : Nat
  examplesSeen : Nat
  evals : List (List ℚ)

/-- A deterministic stream of random draws derived from the RNG state. -/
def randOf (r : Nat) : Nat → Nat := fun j => r + j

/-- Default example used when reading an episodic slot (numpy indexing always
yields a row; unwritten slots are the zero-initialized rows). -/
def exDefault : Ex := ⟨[], []⟩

/-- Gather the episodic rows at the sampled indices. -/
def gatherMem (mem : Nat → Option Ex) (idxs : List Nat) : List Ex :=
  idxs.map (fun i => (mem i).getD exDefault)

/-- Offer the realized batch to the episodic FIFO ring buffer, the current
task's block starting at episodic_filled_counter (which is passed by value and
not advanced here). -/
def fifoPush (cfg : RunConfig) (batch : List Ex) (st : RunSt) : RunSt :=
  let f := update_fifo_buffer batch cfg.mem_size st.episodicFilled
    ⟨st.episodic, st.countCls⟩
  { st with episodic := f.mem, countCls := f.countCls }

/-- Offer the realized batch to the reservoir buffer. -/
def reservoirPush (cfg : RunConfig) (batch : List Ex) (st : RunSt) : RunSt :=
  let r := update_reservior batch (episodicMemSize cfg) (randOf st.rng)
    st.episodic st.examplesSeen
  { st with episodic := r.1, examplesSeen := r.2, rng := st.rng + 1 }

/-- One training iteration of task t (fc_permute_mnist.py lines 276-446),
dispatched on the strategy: the memory sample is assembled where the strategy
needs one, the external model performs the step, and the realized batch is fed
back to the strategy's buffer.  The hindsight anchor-buffer maintenance is
embedded separately by taskZeroAnchorUpdate and hindsightAnchorsWritten. -/
def iterStep (E : ExtOps) (cfg : RunConfig) (t : Nat) (tx : List Ex) (st : RunSt)
    (i : Nat) : RunSt :=
  let batch := realizedBatch tx cfg.batch_size i
  match cfg.imp_method with
  | .AGEM =>
    if t = 0 then
      fifoPush cfg batch { st with params := E.trainStep .AGEM st.params batch }
    else
      let mask := memSelect st.episodicFilled cfg.eps_mem_batch (randOf st.rng)
      let p1 := E.storeRef st.params (gatherMem st.episodic mask)
      fifoPush cfg batch { st with params := E.trainStep .AGEM p1 batch, rng := st.rng + 1 }
  | .ERRing =>
    let r := min st.episodicFilled (episodicMemSize cfg)
    let mask := memSelect r cfg.eps_mem_batch (randOf st.rng)
    let joint := gatherMem st.episodic mask ++ batch
    fifoPush cfg batch { st with params := E.trainStep .ERRing st.params joint, rng := st.rng + 1 }
  | .ERHindsight =>
    let r := min st.episodicFilled (episodicMemSize cfg)
    let mask := memSelect r cfg.eps_mem_batch (randOf st.rng)
    let joint := gatherMem st.episodic mask ++ batch
    fifoPush cfg batch
      { st with params := E.trainStep .ERHindsight st.params joint, rng := st.rng + 1 }
  | .ERReservoir =>
    let r := min st.examplesSeen (episodicMemSize cfg)
    let mask := npShuffle (randOf (st.rng + 1)) 0 (memSelect r cfg.eps_mem_batch (randOf st.rng))
    let joint := gatherMem st.episodic mask ++ batch
    reservoirPush cfg batch
      { st with params := E.trainStep .ERReservoir st.params joint, rng := st.rng + 2 }
  | .MER =>
    let r := min st.examplesSeen (episodicMemSize cfg)
    let mask := npShuffle (randOf (st.rng + 1)) 0 (memSelect r cfg.eps_mem_batch (randOf st.rng))
    let p1 := (gatherMem st.episodic mask).foldl (fun p e => E.trainStep .MER p [e]) st.params
    reservoirPush cfg batch
      { st with params := E.trainStep .MER p1 batch, rng := st.rng + 2 }
  | m => { st with params := E.trainStep m st.params batch }

/-- Number of training iterations of a task (fc_permute_mnist.py lines 270-273):
one epoch of ceil(n / batch_size) mini-batches in single-epoch mode, otherwise
the fixed train_iters. -/
def numItersFor (cfg : RunConfig) (n : Nat) : Nat :=
  if cfg.train_single_epoch then (n + cfg.batch_size - 1) / cfg.batch_size
  else cfg.train_iters

/-- The training loop of one task: iterations 0, 1, ... folded over iterStep. -/
def trainLoop (E : ExtOps) (cfg : RunConfig) (t : Nat) (tx : List Ex) (st : RunSt) : RunSt :=
  (List.range (numItersFor cfg tx.length)).foldl (iterStep E cfg t tx) st

/-- The LOAD-phase restore (fc_permute_mnist.py lines 211-212): for every task
after the first, model parameters are reset to the stored checkpoint before the
training loop; task 0 starts from the parameters as they are. -/
def restorePhase (t : Nat) (st : RunSt) : RunSt :=
  if 0 < t then { st with params := st.saved } else st

/-- The episodic-memory counter advance at the task boundary (fc_permute_mnist.py
lines 479-481): episodic_filled_counter += mem_size * TOTAL_CLASSES, only for
strategies that use episodic memory. -/
def counterPhase (cfg : RunConfig) (st : RunSt) : RunSt :=
  if useEpisodicMemory cfg.imp_method then
    { st with episodicFilled := st.episodicFilled + cfg.mem_size * TOTAL_CLASSES }
  else st

/-- The inter-task update (fc_permute_mnist.py lines 486-489): for every task
except the last, the external model refreshes its importance state and the
resulting parameters become the checkpoint restored by the next task's LOAD
phase. -/
def updatePhase (E : ExtOps) (cfg : RunConfig) (t : Nat) (st : RunSt) : RunSt :=
  if t < cfg.num_tasks - 1 then
    { st with params := E.taskUpdates st.params t, saved := E.taskUpdates st.params t }
  else st

/-- The evaluation snapshot at the end of a task (fc_permute_mnist.py lines
491-509): the read-only accuracy vector over all tasks is appended to the run's
accumulated snapshots. -/
def evalPhase (E : ExtOps) (cfg : RunConfig) (st : RunSt) : RunSt :=
  { st with evals := st.evals ++ [(List.range cfg.num_tasks).map (E.evalAcc st.params)] }

/-- The optimizer reset after evaluation (fc_permute_mnist.py line 512). -/
def resetOptPhase (st : RunSt) : RunSt :=
  { st with optState := 0 }

/-- One full task of a run: restore checkpoint (tasks after the first), train,
advance the episodic counter, run the inter-task update, evaluate, reset the
optimizer. -/
def runTask (E : ExtOps) (cfg : RunConfig) (st : RunSt) (t : Nat) : RunSt :=
  resetOptPhase (evalPhase E cfg (updatePhase E cfg t
    (counterPhase cfg (trainLoop E cfg t (st.data t) (restorePhase t st)))))

/-- The fresh state of a run (fc_permute_mnist.py lines 156-198): the RNG is
seeded, the datasets are built from the seeded RNG, the model variables are
initialized, and all buffers and counters start empty. -/
def initRunSt (E : ExtOps) (seed : Nat) : RunSt :=
  { params := E.initParams
    saved := E.initParams
    optState := 0
    rng := seed
    data := E.datasets seed
    episodic := fun _ => none
    countCls := fun _ => 0
    episodicFilled := 0
    examplesSeen := 0
    evals := [] }

/-- The run state at the moment task t is about to start (after tasks 0..t-1). -/
def stateBeforeTask (E : ExtOps) (cfg : RunConfig) (seed t : Nat) : RunSt :=
  (List.range t).foldl (runTask E cfg) (initRunSt E seed)

/-- The run state right after task t's training loop and counter advance, i.e.
the state whose parameters the inter-task update of task t consumes. -/
def postTrainState (E : ExtOps) (cfg : RunConfig) (seed t : Nat) : RunSt :=
  counterPhase cfg (trainLoop E cfg t ((stateBeforeTask E cfg seed t).data t)
    (restorePhase t (stateBeforeTask E cfg seed t)))

/-- One complete run: all tasks in order from the freshly seeded state. -/
def runOne (E : ExtOps) (cfg : RunConfig) (seed : Nat) : RunSt :=
  (List.range cfg.num_tasks).foldl (runTask E cfg) (initRunSt E seed)

/-- Embedding of train_task_sequence (fc_permute_mnist.py lines 138-521): for
each run index the RNG is reseeded with random_seed + runid and the whole
per-task loop repeats on fresh state; the accuracy matrices are collected. -/
def train_task_sequence (E : ExtOps) (cfg : RunConfig) : List (List (List ℚ)) :=
  (List.range cfg.num_runs).foldl
    (fun runs runid => runs ++ [(runOne E cfg (cfg.random_seed + runid)).evals]) []

/-- The CLI arguments main validates (fc_permute_mnist.py lines 560-573). -/
structure Args where
  arch : String
  imp_method : String
  optim : String
deriving DecidableEq

/-- The configuration errors raised by main before anything runs. -/
inductive ConfigError where
  | badArch : String → ConfigError
  | badImp : String → ConfigError
  | badOptim : String → ConfigError
deriving DecidableEq

/-- Embedding of main's validation prologue (fc_permute_mnist.py lines 563-573):
architecture, strategy and optimizer names are checked in that order and a
ValueError aborts before the model is constructed or any run starts; only a
fully valid configuration reaches the pipeline. -/
def mainCheck {α : Type} (pipeline : Args → α) (a : Args) : Except ConfigError α :=
  if a.arch ∈ VALID_ARCHS then
    if a.imp_method ∈ MODELS then
      if a.optim ∈ VALID_OPTIMS then Except.ok (pipeline a)
      else Except.error (ConfigError.badOptim a.optim)
    else Except.error (ConfigError.badImp a.imp_method)
  else Except.error (ConfigError.badArch a.arch)

/-- Loss stream with a positive infinity (non-finite, not NaN) at iteration 0. -/
def lossWithInf : Nat → FVal := fun i => if i = 0 then FVal.posInf else FVal.fin 0

/-- A class-0 example whose input row is [0, 1]. -/
def exFirst : Ex := ⟨[0, 1], oneHotQ 10 0⟩

/-- A second class-0 example whose input row is [2, 3] (minimum 2, so it is not
a min-max normalized row). -/
def exSecond : Ex := ⟨[2, 3], oneHotQ 10 0⟩

/-- An empty FIFO state: no slot written, all cursors 0. -/
def initFifo : FifoSt := ⟨fun _ => none, fun _ => 0⟩

/-- A tiny example of class 0 with a length-10 one-hot label. -/
def exA : Ex := ⟨[1], oneHotQ 10 0⟩

/-- A concrete deterministic external-collaborator instance for witnesses. -/
def extSmall : ExtOps :=
  { initParams := 0
    datasets := fun _ _ => [exA]
    trainStep := fun _ p _ => p + 1
    storeRef := fun p _ => p
    taskUpdates := fun p _ => p + 1
    evalAcc := fun _ _ => 0 }

/-- A concrete small configuration using the ER-Ring strategy. -/
def cfgRing : RunConfig :=
  { random_seed := 3
    num_runs := 1
    num_tasks := 2
    mem_size := 1
    eps_mem_batch := 2
    batch_size := 1
    train_iters := 1
    train_single_epoch := false
    cross_validate_mode := false
    imp_method := .ERRing }

/-- A concrete small configuration using the ER-Reservoir strategy. -/
def cfgRes : RunConfig :=
  { random_seed := 0
    num_runs := 1
    num_tasks := 1
    mem_size := 1
    eps_mem_batch := 4
    batch_size := 1
    train_iters := 2
    train_single_epoch := false
    cross_validate_mode := false
    imp_method := .ERReservoir }

/-- The run state after the first ER-Reservoir iteration of task 0. -/
def resStateAfterFirstIter : RunSt :=
  iterStep extSmall cfgRes 0 [exA] (initRunSt extSmall 0) 0

/-- An invalid argument vector: unknown architecture name. -/
def argsBad : Args := ⟨"FC-X", "EWC", "SGD"⟩

theorem lossLoop_le_of_isnan (f : Nat → FVal) (i : Nat) (hi : isnan (f i) = true) :
    ∀ (n s : Nat), s ≤ i → ∀ j ∈ (lossLoop f s n).1, j ≤ i := by
  intro n
  induction n with
  | zero => intro s _ j hj; simp [lossLoop] at hj
  | succ n ih =>
    intro s hs j hj
    by_cases h : isnan (f s) = true
    · simp [lossLoop, h] at hj
      omega
    · simp [lossLoop, h] at hj
      rcases hj with rfl | hj
      · exact hs
      · have hsi : s ≠ i := fun he => h (he ▸ hi)
        exact ih (s + 1) (by omega) j hj

theorem lossLoop_flag_of_mem_isnan (f : Nat → FVal) (i : Nat) (hi : isnan (f i) = true) :
    ∀ (n s : Nat), i ∈ (lossLoop f s n).1 → (lossLoop f s n).2 = true := by
  intro n
  induction n with
  | zero => intro s hj; simp [lossLoop] at hj
  | succ n ih =>
    intro s hj
    by_cases h : isnan (f s) = true
    · simp [lossLoop, h]
    · simp [lossLoop, h] at hj ⊢
      rcases hj with rfl | hj
      · exact absurd hi h
      · exact ih (s + 1) hj

/-- Claim C1 (amended): the divergence abort triggers on a NaN loss, not on
every non-finite loss.  If the loss of iteration i is NaN then no executed
iteration index exceeds i — the offending iteration is the last one — and,
whenever iteration i is actually reached, the loop ends in the aborted
(sys.exit) state; the abort is immediate and not retried. -/
theorem c1_nan_aborts (f : Nat → FVal) (n i : Nat) (h : isnan (f i) = true) :
    (∀ j ∈ (lossLoop f 0 n).1, j ≤ i) ∧
      (i ∈ (lossLoop f 0 n).1 → (lossLoop f 0 n).2 = true) :=
  ⟨lossLoop_le_of_isnan f i h n 0 (Nat.zero_le i), lossLoop_flag_of_mem_isnan f i h n 0⟩

/-- Claim C1 counterexample: a loss that is non-finite but not NaN (positive
infinity) at iteration 0 does not terminate the loop — iteration 1 still
executes and no abort fires — refuting the claim that any non-finite loss
aborts immediately with no further iterations. -/
theorem c1_counterexample :
    (lossLoop lossWithInf 0 2).1 = [0, 1] ∧ (lossLoop lossWithInf 0 2).2 = false ∧
      isfinite (lossWithInf 0) = false := by
  decide

theorem c1_witness :
    isnan ((fun _ => FVal.nan) 0) = true ∧
      ((∀ j ∈ (lossLoop (fun _ => FVal.nan) 0 3).1, j ≤ 0) ∧
        (0 ∈ (lossLoop (fun _ => FVal.nan) 0 3).1 →
          (lossLoop (fun _ => FVal.nan) 0 3).2 = true)) :=
  ⟨by decide, c1_nan_aborts (fun _ => FVal.nan) 3 0 (by decide)⟩

/-- Claim C9: in single-epoch mode with cross-validation off, the per-iteration
accuracy snapshot fires exactly at iterations in {0..9}, the multiples of 10
below 100, and the multiples of 100; in every other mode combination no
per-iteration snapshot is taken. -/
theorem c9_snapshot_iff (single cross : Bool) (i : Nat) :
    (snapshotAtIter true false i = true ↔
      (i < 10 ∨ (i < 100 ∧ 10 ∣ i) ∨ 100 ∣ i)) ∧
      (¬(single = true ∧ cross = false) → snapshotAtIter single cross i = false) := by
  constructor
  · simp only [snapshotAtIter, Bool.true_and, Bool.not_false, Bool.and_true,
      Bool.or_eq_true, Bool.and_eq_true, decide_eq_true_eq]
    simp only [Nat.dvd_iff_mod_eq_zero]
    tauto
  · intro h
    cases single <;> cases cross <;> simp_all [snapshotAtIter]

/-- Claim C8: an invalid architecture, strategy or optimizer name makes main's
validation prologue fail with a configuration error: the result is an error, it
is never the ok-variant carrying a pipeline outcome, and it does not depend on
the pipeline at all — no run, model construction or training iteration is
reached. -/
theorem c8_config_validation {α : Type} (pipe pipe2 : Args → α) (a : Args)
    (h : a.arch ∉ VALID_ARCHS ∨ a.imp_method ∉ MODELS ∨ a.optim ∉ VALID_OPTIMS) :
    (∃ e, mainCheck pipe a = Except.error e) ∧
      (∀ v, mainCheck pipe a ≠ Except.ok v) ∧
      mainCheck pipe2 a = mainCheck pipe a := by
  have he : ∃ e, mainCheck pipe a = Except.error e ∧ mainCheck pipe2 a = Except.error e := by
    unfold mainCheck
    by_cases h1 : a.arch ∈ VALID_ARCHS
    · rw [if_pos h1, if_pos h1]
      by_cases h2 : a.imp_method ∈ MODELS
      · rw [if_pos h2, if_pos h2]
        have h3 : a.optim ∉ VALID_OPTIMS := by tauto
        rw [if_neg h3, if_neg h3]
        exact ⟨_, rfl, rfl⟩
      · rw [if_neg h2, if_neg h2]
        exact ⟨_, rfl, rfl⟩
    · rw [if_neg h1, if_neg h1]
      exact ⟨_, rfl, rfl⟩
  obtain ⟨e, he1, he2⟩ := he
  refine ⟨⟨e, he1⟩, fun v hv => ?_, he2.trans he1.symm⟩
  rw [he1] at hv
  exact Except.noConfusion hv

theorem c8_witness :
    (argsBad.arch ∉ VALID_ARCHS ∨ argsBad.imp_method ∉ MODELS ∨
        argsBad.optim ∉ VALID_OPTIMS) ∧
      ((∃ e, mainCheck (fun _ => (0 : Nat)) argsBad = Except.error e) ∧
        (∀ v, mainCheck (fun _ => (0 : Nat)) argsBad ≠ Except.ok v) ∧
        mainCheck (fun _ => (1 : Nat)) argsBad = mainCheck (fun _ => (0 : Nat)) argsBad) :=
  ⟨by decide, c8_config_validation (fun _ => 0) (fun _ => 1) argsBad (by decide)⟩

theorem cons_eraseIdx_perm (l : List Nat) (i : Nat) (h : i < l.length) :
    (l[i] :: l.eraseIdx i).Perm l := by
  rw [List.eraseIdx_eq_take_drop_succ]
  refine List.Perm.trans List.perm_middle.symm ?_
  rw [List.getElem_cons_drop, List.take_append_drop]

theorem pick_length (rand : Nat → Nat) :
    ∀ (k : Nat) (l : List Nat) (s : Nat), (pick rand k l s).length = min k l.length := by
  intro k
  induction k with
  | zero => intro l s; simp [pick]
  | succ k ih =>
    intro l s
    cases l with
    | nil => simp [pick]
    | cons a t =>
      have hi : rand s % (a :: t).length < (a :: t).length := Nat.mod_lt _ (by simp)
      simp only [pick, List.length_cons]
      rw [ih]
      have h2 := List.length_eraseIdx_add_one hi
      simp only [List.length_cons] at h2
      omega

theorem pick_subset (rand : Nat → Nat) :
    ∀ (k : Nat) (l : List Nat) (s : Nat), ∀ x ∈ pick rand k l s, x ∈ l := by
  intro k
  induction k with
  | zero => intro l s x hx; simp [pick] at hx
  | succ k ih =>
    intro l s x hx
    cases l with
    | nil => simp [pick] at hx
    | cons a t =>
      have hi : rand s % (a :: t).length < (a :: t).length := Nat.mod_lt _ (by simp)
      simp only [pick, List.mem_cons] at hx
      rcases hx with h1 | hx
      · rw [List.getD_eq_getElem _ _ hi] at h1
        exact h1 ▸ List.getElem_mem hi
      · exact List.eraseIdx_subset _ _ (ih _ _ x hx)

theorem pick_nodup (rand : Nat → Nat) :
    ∀ (k : Nat) (l : List Nat) (s : Nat), l.Nodup → (pick rand k l s).Nodup := by
  intro k
  induction k with
  | zero => intro l s _; simp [pick]
  | succ k ih =>
    intro l s hl
    cases l with
    | nil => simp [pick]
    | cons a t =>
      have hi : rand s % (a :: t).length < (a :: t).length := Nat.mod_lt _ (by simp)
      have hperm := ((cons_eraseIdx_perm (a :: t) _ hi).nodup_iff).mpr hl
      have hhead := (List.nodup_cons.mp hperm).1
      have htail := (List.nodup_cons.mp hperm).2
      simp only [pick]
      rw [List.getD_eq_getElem _ _ hi]
      exact List.nodup_cons.mpr
        ⟨fun hm => hhead (pick_subset rand k _ _ _ hm), ih _ _ htail⟩

theorem pick_perm (rand : Nat → Nat) :
    ∀ (n : Nat) (l : List Nat) (s : Nat), l.length = n → (pick rand n l s).Perm l := by
  intro n
  induction n with
  | zero =>
    intro l s h
    rw [List.length_eq_zero] at h
    subst h
    simp [pick]
  | succ n ih =>
    intro l s h
    cases l with
    | nil => simp at h
    | cons a t =>
      have hi : rand s % (a :: t).length < (a :: t).length := Nat.mod_lt _ (by simp)
      have hlen : ((a :: t).eraseIdx (rand s % (a :: t).length)).length = n := by
        have h2 := List.length_eraseIdx_add_one hi
        omega
      simp only [pick]
      rw [List.getD_eq_getElem _ _ hi]
      exact ((ih _ (s + 1) hlen).cons _).trans (cons_eraseIdx_perm _ _ hi)

theorem memSelect_length (r k : Nat) (rand : Nat → Nat) :
    (memSelect r k rand).length = min k r := by
  unfold memSelect
  split_ifs with h
  · rw [List.length_range]
    omega
  · rw [pick_length, List.length_range]

theorem memSelect_lt (r k : Nat) (rand : Nat → Nat) :
    ∀ idx ∈ memSelect r k rand, idx < r := by
  intro idx h
  unfold memSelect at h
  split_ifs at h with hc
  · exact List.mem_range.mp h
  · exact List.mem_range.mp (pick_subset rand k _ 0 idx h)

theorem memSelect_nodup (r k : Nat) (rand : Nat → Nat) :
    (memSelect r k rand).Nodup := by
  unfold memSelect
  split_ifs with h
  · exact List.nodup_range r
  · exact pick_nodup rand k _ 0 (List.nodup_range r)

theorem npShuffle_perm (rand : Nat → Nat) (s : Nat) (l : List Nat) :
    (npShuffle rand s l).Perm l :=
  pick_perm rand l.length l s rfl

/-- Claim C4 (amended): the memory-sample index selection always has exactly
min(k, r) elements, all distinct, all inside the resident range [0, r), and
when r ≤ k the selection is all resident indices in index order; however the
ER-Reservoir and MER strategies shuffle the selection before use, so the
indices they actually use form a permutation of the selection rather than the
index-ordered list itself. -/
theorem c4_selection (r k s : Nat) (rand randS : Nat → Nat) :
    (memSelect r k rand).length = min k r ∧
      (memSelect r k rand).Nodup ∧
      (∀ idx ∈ memSelect r k rand, idx < r) ∧
      (r ≤ k → memSelect r k rand = List.range r) ∧
      (npShuffle randS s (memSelect r k rand)).Perm (memSelect r k rand) :=
  ⟨memSelect_length r k rand, memSelect_nodup r k rand, memSelect_lt r k rand,
    fun h => if_pos h, npShuffle_perm randS s (memSelect r k rand)⟩

/-- Claim C4 counterexample: for the ER-Reservoir strategy with r = 2 resident
examples and a requested sample of k = 3 (so r ≤ k), the index sequence
actually used to build the memory batch is the shuffled [1, 0], not the
resident indices in index order [0, 1] — refuting the "all resident indices
are used in index order" part as stated for every memory-consuming strategy. -/
theorem c4_counterexample :
    erReservoirMemIndices 2 100 3 (fun _ => 1) (fun _ => 1) = [1, 0] ∧
      erReservoirMemIndices 2 100 3 (fun _ => 1) (fun _ => 1) ≠ List.range 2 := by
  decide

theorem fifo_cnt_zero (off : Nat) :
    ∀ (l : List Ex) (st : FifoSt), (∀ k, st.countCls k = 0) →
      ∀ k, (update_fifo_buffer l 1 off st).countCls k = 0 := by
  intro l
  induction l with
  | nil => intro st h k; exact h k
  | cons e tl ih =>
    intro st h k
    show (update_fifo_buffer tl 1 off (fifoStep 1 off st e)).countCls k = 0
    apply ih
    intro k2
    simp only [fifoStep, Function.update_apply, Nat.mod_one]
    split_ifs with hk
    · rfl
    · exact h k2

theorem fifo_slot_last (c : Nat) :
    ∀ (stream : List Ex) (st : FifoSt), (∀ k, st.countCls k = 0) →
      (update_fifo_buffer stream 1 0 st).mem c =
        ((stream.filter (fun e => decide (clsOf e.lab = c))).getLast?).elim (st.mem c) some := by
  intro stream
  induction stream using List.reverseRecOn with
  | nil => intro st h; simp [update_fifo_buffer]
  | append_singleton l e ih =>
    intro st h
    have hstep : update_fifo_buffer (l ++ [e]) 1 0 st =
        fifoStep 1 0 (update_fifo_buffer l 1 0 st) e := by
      simp [update_fifo_buffer, List.foldl_append]
    have hcnt := fifo_cnt_zero 0 l st h
    rw [hstep, List.filter_append]
    by_cases hc : clsOf e.lab = c
    · have hidx : 0 + 1 * clsOf e.lab + (update_fifo_buffer l 1 0 st).countCls (clsOf e.lab) = c := by
        rw [hcnt]
        omega
      simp only [fifoStep]
      rw [hidx, Function.update_same]
      have hfe : List.filter (fun e => decide (clsOf e.lab = c)) [e] = [e] := by
        simp [hc]
      rw [hfe, List.getLast?_concat]
      rfl
    · have hidx : 0 + 1 * clsOf e.lab + (update_fifo_buffer l 1 0 st).countCls (clsOf e.lab) ≠ c := by
        rw [hcnt]
        omega
      simp only [fifoStep]
      rw [Function.update_noteq (fun hx => hidx hx.symm)]
      have hfe : List.filter (fun e => decide (clsOf e.lab = c)) [e] = [] := by
        simp [hc]
      rw [hfe, List.append_nil]
      exact ih st h

/-- Claim C2 (amended): under the hindsight-anchor strategy, at the end of
task 0 the anchor slot for each class holds the last-seen example of that class
from the task-0 stream — a direct copy of the example (input row and one-hot
label), with no additional normalization applied — populated during task 0's
pass through the FIFO update with mem_per_class = 1; slots of classes never
seen keep their initial content. -/
theorem c2_task0_anchor_last_seen (batches : List (List Ex)) (st : FifoSt) (c : Nat)
    (h : ∀ k, st.countCls k = 0) :
    (taskZeroAnchorUpdate batches st).mem c =
      ((batches.flatten.filter (fun e => decide (clsOf e.lab = c))).getLast?).elim
        (st.mem c) some := by
  have key : taskZeroAnchorUpdate batches st = update_fifo_buffer batches.flatten 1 0 st := by
    rw [update_fifo_buffer, List.foldl_flatten]
    rfl
  rw [key]
  exact fifo_slot_last c batches.flatten st h

/-- Claim C2 counterexample: offering two class-0 examples in order during
task 0 leaves the class-0 anchor slot holding the second (last-seen) example,
not the first-seen one, and the stored row [2, 3] is a raw copy whose minimum
is 2, i.e. not a min-max normalized row — refuting "first-seen" and
"normalized copy". -/
theorem c2_counterexample :
    (taskZeroAnchorUpdate [[exFirst], [exSecond]] initFifo).mem 0 = some exSecond ∧
      (taskZeroAnchorUpdate [[exFirst], [exSecond]] initFifo).mem 0 ≠ some exFirst ∧
      exSecond ≠ exFirst ∧ rowMin exSecond.img ≠ 0 := by
  decide

theorem c2_witness :
    (∀ k, initFifo.countCls k = 0) ∧
      (taskZeroAnchorUpdate [[exFirst]] initFifo).mem 0 =
        ((([[exFirst]] : List (List Ex)).flatten.filter
          (fun e => decide (clsOf e.lab = 0))).getLast?).elim (initFifo.mem 0) some :=
  ⟨fun _ => rfl, c2_task0_anchor_last_seen [[exFirst]] initFifo 0 (fun _ => rfl)⟩

theorem foldl_min_le_init (x : ℚ) (l : List ℚ) : l.foldl min x ≤ x := by
  induction l generalizing x with
  | nil => exact le_refl x
  | cons b tl ih => exact le_trans (ih (min x b)) (min_le_left x b)

theorem le_foldl_max_init (x : ℚ) (l : List ℚ) : x ≤ l.foldl max x := by
  induction l generalizing x with
  | nil => exact le_refl x
  | cons b tl ih => exact le_trans (le_max_left x b) (ih (max x b))

theorem rowMin_le_rowMax (a : List ℚ) : rowMin a ≤ rowMax a := by
  cases a with
  | nil => simp [rowMin, rowMax]
  | cons x l => exact le_trans (foldl_min_le_init x l) (le_foldl_max_init x l)

theorem foldl_min_map (f : ℚ → ℚ) (hf : ∀ x y, f (min x y) = min (f x) (f y)) :
    ∀ (l : List ℚ) (x : ℚ), (l.map f).foldl min (f x) = f (l.foldl min x) := by
  intro l
  induction l with
  | nil => intro x; rfl
  | cons b tl ih =>
    intro x
    simp only [List.map_cons, List.foldl_cons]
    rw [← hf, ih]

theorem foldl_max_map (f : ℚ → ℚ) (hf : ∀ x y, f (max x y) = max (f x) (f y)) :
    ∀ (l : List ℚ) (x : ℚ), (l.map f).foldl max (f x) = f (l.foldl max x) := by
  intro l
  induction l with
  | nil => intro x; rfl
  | cons b tl ih =>
    intro x
    simp only [List.map_cons, List.foldl_cons]
    rw [← hf, ih]

theorem rowMin_map (f : ℚ → ℚ) (hf : ∀ x y, f (min x y) = min (f x) (f y))
    (a : List ℚ) (ha : a ≠ []) : rowMin (a.map f) = f (rowMin a) := by
  cases a with
  | nil => exact absurd rfl ha
  | cons x l =>
    simp only [rowMin, List.map_cons]
    exact foldl_min_map f hf l x

theorem rowMax_map (f : ℚ → ℚ) (hf : ∀ x y, f (max x y) = max (f x) (f y))
    (a : List ℚ) (ha : a ≠ []) : rowMax (a.map f) = f (rowMax a) := by
  cases a with
  | nil => exact absurd rfl ha
  | cons x l =>
    simp only [rowMax, List.map_cons]
    exact foldl_max_map f hf l x

theorem normalizeRow_of_ne (a : List ℚ) (ha : a ≠ []) (hne : rowMin a ≠ rowMax a) :
    ∃ qs : List ℚ, normalizeRow a = qs.map FVal.fin ∧ rowMin qs = 0 ∧ rowMax qs = 1 := by
  have hlt : rowMin a < rowMax a := lt_of_le_of_ne (rowMin_le_rowMax a) hne
  have hpos : (0 : ℚ) < rowMax a - rowMin a := by linarith
  have hsub : rowMax a - rowMin a ≠ 0 := ne_of_gt hpos
  have hmono : Monotone (fun x : ℚ => (x - rowMin a) / (rowMax a - rowMin a)) := by
    intro x y hxy
    exact (div_le_div_iff_of_pos_right hpos).mpr (sub_le_sub_right hxy _)
  refine ⟨a.map (fun x => (x - rowMin a) / (rowMax a - rowMin a)), ?_, ?_, ?_⟩
  · rw [normalizeRow, if_neg hsub, List.map_map]
    rfl
  · rw [rowMin_map _ (fun x y => hmono.map_min) a ha]
    rw [sub_self, zero_div]
  · rw [rowMax_map _ (fun x y => hmono.map_max) a ha]
    exact div_self hsub

theorem foldl_min_replicate (n : Nat) (x : ℚ) : (List.replicate n x).foldl min x = x := by
  induction n with
  | zero => rfl
  | succ n ih => simp only [List.replicate_succ, List.foldl_cons, min_self]; exact ih

theorem foldl_max_replicate (n : Nat) (x : ℚ) : (List.replicate n x).foldl max x = x := by
  induction n with
  | zero => rfl
  | succ n ih => simp only [List.replicate_succ, List.foldl_cons, max_self]; exact ih

theorem normalizeRow_replicate_zero (D : Nat) :
    normalizeRow (List.replicate D (0 : ℚ)) = List.replicate D FVal.nan := by
  have hcond : rowMax (List.replicate D (0 : ℚ)) - rowMin (List.replicate D (0 : ℚ)) = 0 := by
    cases D with
    | zero => simp [rowMax, rowMin, List.replicate]
    | succ n =>
      simp only [List.replicate_succ, rowMax, rowMin, foldl_max_replicate, foldl_min_replicate]
      exact sub_self 0
  rw [normalizeRow, if_pos hcond, List.map_replicate]

/-- Claim C3 (amended): the anchor row written for class c at a task t > 0 is
the min-max normalization of the synthesized representative; whenever the
representative is non-constant the written row is finite with per-vector
minimum exactly 0 and maximum exactly 1, but in the degenerate case of a class
with zero resident examples the pre-normalization representative is the zero
vector and the written anchor is the all-NaN row (normalize_tensors divides
0 by 0), not the exact zero vector. -/
theorem c3_anchor_normalization (rc : Nat → Nat) (synth : Nat → List ℚ) (nC D c : Nat)
    (hc : c < nC) (hD : 0 < D) (hlen : (synth c).length = D) :
    (hindsightAnchorsWritten rc synth nC D)[c]? =
        some (normalizeRow (if rc c = 0 then List.replicate D (0 : ℚ) else synth c)) ∧
      (rc c = 0 →
        (hindsightAnchorsWritten rc synth nC D)[c]? = some (List.replicate D FVal.nan)) ∧
      (rc c ≠ 0 → rowMin (synth c) ≠ rowMax (synth c) →
        ∃ qs : List ℚ,
          (hindsightAnchorsWritten rc synth nC D)[c]? = some (qs.map FVal.fin) ∧
            rowMin qs = 0 ∧ rowMax qs = 1) := by
  have h1 : (hindsightAnchorsWritten rc synth nC D)[c]? =
      some (normalizeRow (if rc c = 0 then List.replicate D (0 : ℚ) else synth c)) := by
    simp [hindsightAnchorsWritten, normalize_tensors, er_mem_update_hindsight,
      List.getElem?_map, List.getElem?_range hc]
  refine ⟨h1, ?_, ?_⟩
  · intro h0
    rw [h1, if_pos h0, normalizeRow_replicate_zero]
  · intro h0 hne
    have ha : synth c ≠ [] := by
      intro he
      rw [he] at hlen
      simp at hlen
      omega
    obtain ⟨qs, hq, h2, h3⟩ := normalizeRow_of_ne (synth c) ha hne
    exact ⟨qs, by rw [h1, if_neg h0, hq], h2, h3⟩

/-- Claim C3 counterexample: for a class with zero resident examples the
representative defaults to the zero vector, and the anchor actually written is
its min-max normalization — an all-NaN row (0/0 entrywise), not the exact zero
vector claimed. -/
theorem c3_counterexample :
    hindsightAnchorsWritten (fun _ => 0) (fun _ => []) 1 2 = [[FVal.nan, FVal.nan]] ∧
      hindsightAnchorsWritten (fun _ => 0) (fun _ => []) 1 2 ≠ [[FVal.fin 0, FVal.fin 0]] := by
  have h2 : er_mem_update_hindsight (fun _ => 0) (fun _ => []) 1 2 =
      [List.replicate 2 (0 : ℚ)] := by
    simp [er_mem_update_hindsight]
  have h : hindsightAnchorsWritten (fun _ => 0) (fun _ => []) 1 2 =
      [List.replicate 2 FVal.nan] := by
    rw [hindsightAnchorsWritten, h2, normalize_tensors]
    simpa using normalizeRow_replicate_zero 2
  refine ⟨?_, ?_⟩
  · rw [h]
    rfl
  · rw [h]
    decide

theorem c3_witness :
    (0 < 1 ∧ 0 < 2 ∧ ((fun _ => [(0 : ℚ), 2]) 0).length = 2) ∧
      ((hindsightAnchorsWritten (fun _ => 1) (fun _ => [(0 : ℚ), 2]) 1 2)[0]? =
          some (normalizeRow (if (1 : Nat) = 0 then List.replicate 2 (0 : ℚ) else [(0 : ℚ), 2])) ∧
        ((1 : Nat) = 0 →
          (hindsightAnchorsWritten (fun _ => 1) (fun _ => [(0 : ℚ), 2]) 1 2)[0]? =
            some (List.replicate 2 FVal.nan)) ∧
        ((1 : Nat) ≠ 0 → rowMin [(0 : ℚ), 2] ≠ rowMax [(0 : ℚ), 2] →
          ∃ qs : List ℚ,
            (hindsightAnchorsWritten (fun _ => 1) (fun _ => [(0 : ℚ), 2]) 1 2)[0]? =
              some (qs.map FVal.fin) ∧ rowMin qs = 0 ∧ rowMax qs = 1)) :=
  ⟨⟨by decide, by decide, by decide⟩,
    c3_anchor_normalization (fun _ => 1) (fun _ => [(0 : ℚ), 2]) 1 2 0
      (by decide) (by decide) (by decide)⟩

theorem foldl_push_eq_map {β : Type} (g : Nat → β) :
    ∀ (n : Nat) (init : List β),
      (List.range n).foldl (fun acc i => acc ++ [g i]) init = init ++ (List.range n).map g := by
  intro n
  induction n with
  | zero => intro init; simp
  | succ n ih =>
    intro init
    rw [List.range_succ, List.foldl_append, List.map_append, ih]
    simp

/-- Claim C5: the run with index r is reseeded with random_seed + r and its
whole outcome — the final run state runOne (whose fields include the episodic
buffer contents and counters) and the accuracy matrix recorded into the result
list — is the pure function runOne applied to the external operations, the
configuration and that seed alone; no state is threaded between runs, so two
executions with identical seed and configuration agree bit for bit. -/
theorem c5_run_reproducibility (E : ExtOps) (cfg : RunConfig) (r : Nat)
    (h : r < cfg.num_runs) :
    (train_task_sequence E cfg)[r]? = some ((runOne E cfg (cfg.random_seed + r)).evals) := by
  have key := foldl_push_eq_map
    (fun runid => (runOne E cfg (cfg.random_seed + runid)).evals) cfg.num_runs
    ([] : List (List (List ℚ)))
  rw [train_task_sequence, key]
  simp [List.getElem?_map, List.getElem?_range h]

theorem c5_witness :
    0 < cfgRing.num_runs ∧
      (train_task_sequence extSmall cfgRing)[0]? =
        some ((runOne extSmall cfgRing (cfgRing.random_seed + 0)).evals) :=
  ⟨by decide, c5_run_reproducibility extSmall cfgRing 0 (by decide)⟩

theorem iterStep_saved (E : ExtOps) (cfg : RunConfig) (t : Nat) (tx : List Ex)
    (st : RunSt) (i : Nat) : (iterStep E cfg t tx st i).saved = st.saved := by
  cases h : cfg.imp_method <;> simp only [iterStep, h] <;> (try split_ifs) <;>
    simp [fifoPush, reservoirPush]

theorem iterStep_episodicFilled (E : ExtOps) (cfg : RunConfig) (t : Nat) (tx : List Ex)
    (st : RunSt) (i : Nat) : (iterStep E cfg t tx st i).episodicFilled = st.episodicFilled := by
  cases h : cfg.imp_method <;> simp only [iterStep, h] <;> (try split_ifs) <;>
    simp [fifoPush, reservoirPush]

theorem foldl_iterStep_saved (E : ExtOps) (cfg : RunConfig) (t : Nat) (tx : List Ex) :
    ∀ (l : List Nat) (st : RunSt), (l.foldl (iterStep E cfg t tx) st).saved = st.saved := by
  intro l
  induction l with
  | nil => intro st; rfl
  | cons a l ih => intro st; rw [List.foldl_cons, ih, iterStep_saved]

theorem foldl_iterStep_episodicFilled (E : ExtOps) (cfg : RunConfig) (t : Nat) (tx : List Ex) :
    ∀ (l : List Nat) (st : RunSt),
      (l.foldl (iterStep E cfg t tx) st).episodicFilled = st.episodicFilled := by
  intro l
  induction l with
  | nil => intro st; rfl
  | cons a l ih => intro st; rw [List.foldl_cons, ih, iterStep_episodicFilled]

theorem trainLoop_episodicFilled (E : ExtOps) (cfg : RunConfig) (t : Nat) (tx : List Ex)
    (st : RunSt) : (trainLoop E cfg t tx st).episodicFilled = st.episodicFilled :=
  foldl_iterStep_episodicFilled E cfg t tx _ st

theorem restorePhase_episodicFilled (t : Nat) (st : RunSt) :
    (restorePhase t st).episodicFilled = st.episodicFilled := by
  unfold restorePhase
  split_ifs <;> rfl

theorem counterPhase_episodicFilled_ep (cfg : RunConfig) (st : RunSt)
    (hep : useEpisodicMemory cfg.imp_method = true) :
    (counterPhase cfg st).episodicFilled = st.episodicFilled + cfg.mem_size * TOTAL_CLASSES := by
  unfold counterPhase
  rw [if_pos hep]

theorem updatePhase_episodicFilled (E : ExtOps) (cfg : RunConfig) (t : Nat) (st : RunSt) :
    (updatePhase E cfg t st).episodicFilled = st.episodicFilled := by
  unfold updatePhase
  split_ifs <;> rfl

theorem stateBeforeTask_succ (E : ExtOps) (cfg : RunConfig) (seed u : Nat) :
    stateBeforeTask E cfg seed (u + 1) = runTask E cfg (stateBeforeTask E cfg seed u) u := by
  rw [stateBeforeTask, List.range_succ, List.foldl_append]
  rfl

theorem runTask_saved_of_lt (E : ExtOps) (cfg : RunConfig) (st : RunSt) (u : Nat)
    (hu : u < cfg.num_tasks - 1) :
    (runTask E cfg st u).saved =
      E.taskUpdates (counterPhase cfg (trainLoop E cfg u (st.data u) (restorePhase u st))).params u := by
  rw [runTask]
  show (updatePhase E cfg u _).saved = _
  rw [updatePhase, if_pos hu]

theorem stateBeforeTask_episodicFilled (E : ExtOps) (cfg : RunConfig) (seed : Nat)
    (hep : useEpisodicMemory cfg.imp_method = true) :
    ∀ t, (stateBeforeTask E cfg seed t).episodicFilled = t * (cfg.mem_size * TOTAL_CLASSES) := by
  intro t
  induction t with
  | zero => simp [stateBeforeTask, initRunSt]
  | succ u ih =>
    rw [stateBeforeTask_succ, runTask]
    show (updatePhase E cfg u _).episodicFilled = _
    rw [updatePhase_episodicFilled, counterPhase_episodicFilled_ep cfg _ hep,
      trainLoop_episodicFilled, restorePhase_episodicFilled, ih]
    ring

/-- Claim C6: at the start of each task t > 0, the parameters handed to the
first training iteration are exactly the stored checkpoint, and the stored
checkpoint entering task t is exactly the value produced by the external
model's inter-task update after task t-1's training loop; at task 0 the restore
phase is the identity — no restore occurs. -/
theorem c6_restore_boundary (E : ExtOps) (cfg : RunConfig) (seed t : Nat)
    (h1 : 0 < t) (h2 : t < cfg.num_tasks) :
    (restorePhase t (stateBeforeTask E cfg seed t)).params =
        (stateBeforeTask E cfg seed t).saved ∧
      (stateBeforeTask E cfg seed t).saved =
        E.taskUpdates (postTrainState E cfg seed (t - 1)).params (t - 1) ∧
      restorePhase 0 (stateBeforeTask E cfg seed 0) = stateBeforeTask E cfg seed 0 := by
  refine ⟨?_, ?_, ?_⟩
  · rw [restorePhase, if_pos h1]
  · obtain ⟨u, rfl⟩ : ∃ u, t = u + 1 := ⟨t - 1, by omega⟩
    rw [stateBeforeTask_succ, Nat.add_sub_cancel]
    have hu : u < cfg.num_tasks - 1 := by omega
    rw [runTask_saved_of_lt E cfg _ u hu, postTrainState]
  · rw [restorePhase, if_neg (lt_irrefl 0)]

theorem c6_witness :
    (0 < 1 ∧ 1 < cfgRing.num_tasks) ∧
      ((restorePhase 1 (stateBeforeTask extSmall cfgRing 3 1)).params =
          (stateBeforeTask extSmall cfgRing 3 1).saved ∧
        (stateBeforeTask extSmall cfgRing 3 1).saved =
          extSmall.taskUpdates (postTrainState extSmall cfgRing 3 (1 - 1)).params (1 - 1) ∧
        restorePhase 0 (stateBeforeTask extSmall cfgRing 3 0) =
          stateBeforeTask extSmall cfgRing 3 0) :=
  ⟨⟨by decide, by decide⟩, c6_restore_boundary extSmall cfgRing 3 1 (by decide) (by decide)⟩

/-- Claim C7: in every A-GEM iteration of a task t > 0, the reference gradient
is computed from the memory sample and stored strictly before the training
step, which itself precedes the FIFO update; in every iteration of every task
(including task 0) the FIFO buffer receives the realized residual-sized batch
as the final event; and within the whole task trace the iteration blocks occur
in iteration order. -/
theorem c7_agem_order (cfg : RunConfig) (t i counter numIters : Nat) (rand : Nat → Nat)
    (trainX : List Ex) (ht : 0 < t) (hi : i < numIters) :
    agemIterEvents cfg t i counter rand trainX =
        [Ev.storeRefGrads (memSelect counter cfg.eps_mem_batch rand),
          Ev.trainStep t i, Ev.fifoUpdate t i (realizedBatch trainX cfg.batch_size i)] ∧
      agemIterEvents cfg 0 i counter rand trainX =
        [Ev.trainStep 0 i, Ev.fifoUpdate 0 i (realizedBatch trainX cfg.batch_size i)] ∧
      (∃ pre post,
        taskAgemEvents cfg t numIters counter rand trainX =
          pre ++ agemIterEvents cfg t i counter rand trainX ++ post ∧
          pre = ((List.range i).map (fun j => agemIterEvents cfg t j counter rand trainX)).flatten) := by
  refine ⟨?_, ?_, ?_⟩
  · rw [agemIterEvents, if_neg (by omega)]
  · rw [agemIterEvents, if_pos rfl]
  · have hn : numIters = (i + 1) + (numIters - (i + 1)) := by omega
    refine ⟨((List.range i).map (fun j => agemIterEvents cfg t j counter rand trainX)).flatten,
      (((List.range (numIters - (i + 1))).map (fun j => (i + 1) + j)).map
        (fun j => agemIterEvents cfg t j counter rand trainX)).flatten, ?_, rfl⟩
    rw [taskAgemEvents, hn, List.range_add, List.range_succ]
    rw [List.map_append, List.map_append, List.flatten_append, List.flatten_append]
    simp [List.append_assoc]

theorem c7_witness :
    (0 < 1 ∧ 0 < 1) ∧
      (agemIterEvents cfgRing 1 0 5 (randOf 0) [exA] =
          [Ev.storeRefGrads (memSelect 5 cfgRing.eps_mem_batch (randOf 0)),
            Ev.trainStep 1 0, Ev.fifoUpdate 1 0 (realizedBatch [exA] cfgRing.batch_size 0)] ∧
        agemIterEvents cfgRing 0 0 5 (randOf 0) [exA] =
          [Ev.trainStep 0 0, Ev.fifoUpdate 0 0 (realizedBatch [exA] cfgRing.batch_size 0)] ∧
        (∃ pre post,
          taskAgemEvents cfgRing 1 1 5 (randOf 0) [exA] =
            pre ++ agemIterEvents cfgRing 1 0 5 (randOf 0) [exA] ++ post ∧
            pre = ((List.range 0).map (fun j => agemIterEvents cfgRing 1 j 5 (randOf 0) [exA])).flatten)) :=
  ⟨⟨by decide, by decide⟩, c7_agem_order cfgRing 1 0 5 1 (randOf 0) [exA] (by decide) (by decide)⟩

theorem fifo_write_range (mps nC off : Nat) :
    ∀ (batch : List Ex) (fst : FifoSt) (j : Nat),
      (∀ e ∈ batch, clsOf e.lab < nC) → (∀ k, fst.countCls k < mps) →
      (update_fifo_buffer batch mps off fst).mem j ≠ fst.mem j →
      off ≤ j ∧ j < off + mps * nC := by
  intro batch
  induction batch with
  | nil => intro fst j _ _ hne; exact absurd rfl hne
  | cons e tl ih =>
    intro fst j hb hcnt hne
    have hstep : update_fifo_buffer (e :: tl) mps off fst =
        update_fifo_buffer tl mps off (fifoStep mps off fst e) := rfl
    rw [hstep] at hne
    have hcls : clsOf e.lab < nC := hb e (List.mem_cons_self e tl)
    have hmps : 0 < mps := Nat.pos_of_ne_zero (fun h0 => by
      subst h0
      exact Nat.not_lt_zero _ (hcnt 0))
    have hcnt2 : ∀ k, (fifoStep mps off fst e).countCls k < mps := by
      intro k
      simp only [fifoStep, Function.update_apply]
      split_ifs
      · exact Nat.mod_lt _ hmps
      · exact hcnt k
    by_cases hmid : (fifoStep mps off fst e).mem j = fst.mem j
    · have hrec := ih (fifoStep mps off fst e) j
        (fun x hx => hb x (List.mem_cons_of_mem e hx)) hcnt2
        (by rw [hmid]; exact hne)
      exact hrec
    · have hj : j = off + mps * clsOf e.lab + fst.countCls (clsOf e.lab) := by
        by_contra hj
        exact hmid (by
          simp only [fifoStep]
          exact Function.update_noteq hj _ _)
      subst hj
      constructor
      · omega
      · have h1 : fst.countCls (clsOf e.lab) < mps := hcnt _
        calc off + mps * clsOf e.lab + fst.countCls (clsOf e.lab)
            < off + mps * clsOf e.lab + mps := by omega
          _ = off + mps * (clsOf e.lab + 1) := by ring
          _ ≤ off + mps * nC := by
              have h3 : mps * (clsOf e.lab + 1) ≤ mps * nC :=
                Nat.mul_le_mul_left mps (by omega)
              omega

theorem idx_block (B t idx : Nat) (hB : 0 < B) (h : idx < t * B) :
    ∃ u, u < t ∧ u * B ≤ idx ∧ idx < (u + 1) * B := by
  refine ⟨idx / B, ?_, Nat.div_mul_le_self idx B, ?_⟩
  · exact (Nat.div_lt_iff_lt_mul hB).mpr h
  · have h2 := Nat.div_add_mod idx B
    have h3 : idx % B < B := Nat.mod_lt _ hB
    calc idx = B * (idx / B) + idx % B := h2.symm
      _ < B * (idx / B) + B := by omega
      _ = (idx / B + 1) * B := by ring

/-- Claim C10 (amended): for every run using episodic memory,
episodic_filled_counter is unchanged by any sequence of training iterations (it
is passed by value to the FIFO updates and never mutated mid-task), it equals
t * mem_size * TOTAL_CLASSES at the start of task t and grows by exactly
mem_size * TOTAL_CLASSES at each task boundary, and the capacity cap never
bites within the task range; for the strategies whose sampling is driven by
this counter (A-GEM, ER-Ring, ER-Hindsight-Anchors) every sampled index lies in
the block written during some earlier task, and every slot a FIFO update
touches lies inside the current task's block [offset, offset + mem_size *
TOTAL_CLASSES); ER-Reservoir and MER instead sample from
min(examples_seen, capacity), which includes current-task slots. -/
theorem c10_counter_invariant (E : ExtOps) (cfg : RunConfig) (seed t idx off j : Nat)
    (tx : List Ex) (st : RunSt) (l : List Nat) (rand : Nat → Nat)
    (batch : List Ex) (fst : FifoSt)
    (hm : 0 < cfg.mem_size) (hep : useEpisodicMemory cfg.imp_method = true)
    (ht : t ≤ cfg.num_tasks)
    (hb : ∀ e ∈ batch, clsOf e.lab < TOTAL_CLASSES)
    (hcnt : ∀ k, fst.countCls k < cfg.mem_size) :
    (l.foldl (iterStep E cfg t tx) st).episodicFilled = st.episodicFilled ∧
      (stateBeforeTask E cfg seed t).episodicFilled = t * (cfg.mem_size * TOTAL_CLASSES) ∧
      (stateBeforeTask E cfg seed (t + 1)).episodicFilled =
        (stateBeforeTask E cfg seed t).episodicFilled + cfg.mem_size * TOTAL_CLASSES ∧
      min (t * (cfg.mem_size * TOTAL_CLASSES)) (episodicMemSize cfg) =
        t * (cfg.mem_size * TOTAL_CLASSES) ∧
      (idx ∈ memSelect (t * (cfg.mem_size * TOTAL_CLASSES)) cfg.eps_mem_batch rand →
        ∃ u, u < t ∧ u * (cfg.mem_size * TOTAL_CLASSES) ≤ idx ∧
          idx < (u + 1) * (cfg.mem_size * TOTAL_CLASSES)) ∧
      ((update_fifo_buffer batch cfg.mem_size off fst).mem j ≠ fst.mem j →
        off ≤ j ∧ j < off + cfg.mem_size * TOTAL_CLASSES) := by
  have hB : 0 < cfg.mem_size * TOTAL_CLASSES := by
    have : (0 : Nat) < TOTAL_CLASSES := by norm_num [TOTAL_CLASSES]
    exact Nat.mul_pos hm this
  refine ⟨foldl_iterStep_episodicFilled E cfg t tx l st,
    stateBeforeTask_episodicFilled E cfg seed hep t, ?_, ?_, ?_, ?_⟩
  · rw [stateBeforeTask_episodicFilled E cfg seed hep (t + 1),
      stateBeforeTask_episodicFilled E cfg seed hep t]
    ring
  · have h1 : t * cfg.mem_size ≤ cfg.mem_size * cfg.num_tasks := by
      rw [Nat.mul_comm]
      exact Nat.mul_le_mul_left _ ht
    have h2 : t * (cfg.mem_size * TOTAL_CLASSES) ≤ episodicMemSize cfg := by
      rw [episodicMemSize, ← Nat.mul_assoc]
      exact Nat.mul_le_mul_right _ h1
    exact Nat.min_eq_left h2
  · intro hmem
    exact idx_block _ t idx hB (memSelect_lt _ _ _ idx hmem)
  · exact fifo_write_range cfg.mem_size TOTAL_CLASSES off batch fst j hb hcnt

theorem c10_witness :
    (0 < cfgRing.mem_size ∧ useEpisodicMemory cfgRing.imp_method = true ∧
        1 ≤ cfgRing.num_tasks ∧ (∀ e ∈ [exA], clsOf e.lab < TOTAL_CLASSES) ∧
        (∀ k, initFifo.countCls k < cfgRing.mem_size)) ∧
      (([0].foldl (iterStep extSmall cfgRing 1 [exA]) (initRunSt extSmall 3)).episodicFilled =
          (initRunSt extSmall 3).episodicFilled ∧
        (stateBeforeTask extSmall cfgRing 3 1).episodicFilled =
          1 * (cfgRing.mem_size * TOTAL_CLASSES) ∧
        (stateBeforeTask extSmall cfgRing 3 (1 + 1)).episodicFilled =
          (stateBeforeTask extSmall cfgRing 3 1).episodicFilled +
            cfgRing.mem_size * TOTAL_CLASSES ∧
        min (1 * (cfgRing.mem_size * TOTAL_CLASSES)) (episodicMemSize cfgRing) =
          1 * (cfgRing.mem_size * TOTAL_CLASSES) ∧
        (0 ∈ memSelect (1 * (cfgRing.mem_size * TOTAL_CLASSES)) cfgRing.eps_mem_batch
            (randOf 0) →
          ∃ u, u < 1 ∧ u * (cfgRing.mem_size * TOTAL_CLASSES) ≤ 0 ∧
            0 < (u + 1) * (cfgRing.mem_size * TOTAL_CLASSES)) ∧
        ((update_fifo_buffer [exA] cfgRing.mem_size 0 initFifo).mem 0 ≠ initFifo.mem 0 →
          0 ≤ 0 ∧ 0 < 0 + cfgRing.mem_size * TOTAL_CLASSES)) :=
  ⟨⟨by decide, by decide, by decide,
      by
        intro e he
        rw [List.mem_singleton] at he
        subst he
        decide,
      fun _ => Nat.one_pos⟩,
    c10_counter_invariant extSmall cfgRing 3 1 0 0 0 [exA] (initRunSt extSmall 3) [0]
      (randOf 0) [exA] initFifo (by decide) (by decide) (by decide)
      (by
        intro e he
        rw [List.mem_singleton] at he
        subst he
        decide)
      (fun _ => Nat.one_pos)⟩

/-- Claim C10 counterexample: under ER-Reservoir (a strategy using episodic
memory) the memory sampling is driven by examples_seen, not by
episodic_filled_counter: after the first iteration of task 0 the counter is
still 0 — the index range filled during tasks before task 0 is empty — yet the
very next iteration's sample selects index 0, a slot that was written during
task 0 itself (it changed from empty to the first batch's example).  So
"memory sampling during task t draws only from the index range filled during
tasks before t" fails for ER-Reservoir. -/
theorem c10_counterexample :
    resStateAfterFirstIter.episodicFilled = 0 ∧
      resStateAfterFirstIter.examplesSeen = 1 ∧
      resStateAfterFirstIter.episodic 0 = some exA ∧
      (initRunSt extSmall 0).episodic 0 = none ∧
      0 ∈ memSelect (min resStateAfterFirstIter.examplesSeen (episodicMemSize cfgRes))
        cfgRes.eps_mem_batch (randOf resStateAfterFirstIter.rng) := by
  decide
